import Mathlib

/-!
# Verification of the schema-less tag-length-value decoder

A shallow embedding of `src/decode.rs`: a recursive-descent decoder for a
Protocol-Buffers-style wire format, its result model, and its
simplification/display pass, together with theorems settling the
specification's claims about them.

Modelling conventions:
* Bytes are `Nat`s (the buffers fed to the decoder hold values `< 256`;
  the functions are defined on all of `Nat`).
* The Rust `i128` accumulator of `next_varint` is modelled by its bit
  pattern, a `Nat`, with the left shift masking its amount `% 128` and the
  result truncated `% 2 ^ 128` (the defined behaviour of unchecked `<<` on
  `i128`); `as u32` and `as usize` casts are `% 2 ^ 32` and `% 2 ^ 64`.
* The byte cursor (`data`, `idx`) is modelled by the list of
  not-yet-consumed bytes `data.drop idx`; this is faithful because the
  index only advances past bytes that were successfully read, so
  `idx ≤ data.length` always holds.
* Fallible Rust functions returning `Result<T, DecodeError>` become
  `Except DecodeError T`; the `panic!` in `unwrap_nested` becomes `none`.
* Rust `String`s are modelled as `List Char`.
-/

namespace FetchHotfix

/-- Wire type enumeration (`WireType` in src/decode.rs). -/
inductive WireType where
  | VarInt
  | I64
  | Len
  | SGroup
  | EGroup
  | I32
deriving DecidableEq, Repr

/-- Decoding errors (`DecodeError` in src/decode.rs).  The spec calls
`InvalidMemoryAccess` "BufferExhausted". -/
inductive DecodeError where
  | UnsupportedWireType (code : Nat)
  | InvalidMemoryAccess
deriving DecidableEq, Repr

/-- `WireType::from_u8`: only the codes 0, 1, 2 and 5 are accepted; every
other code (3 and 4 included) is rejected with `UnsupportedWireType`. -/
def WireType.from_u8 (value : Nat) : Except DecodeError WireType :=
  match value with
  | 0 => .ok .VarInt
  | 1 => .ok .I64
  | 2 => .ok .Len
  | 5 => .ok .I32
  | _ => .error (.UnsupportedWireType value)

mutual

/-- `DecodedValue`: a decoded value.  `BigInt` stores the `i128` bit
pattern as a `Nat < 2 ^ 128`. -/
inductive DecodedValue where
  | BigInt (v : Nat)
  | Buffer (bytes : List Nat)
  | Nested (r : DecodingResult)

/-- `Decoded`: one parsed field. -/
inductive Decoded where
  | mk (field : Nat) (wire_type : WireType) (is_object : Bool) (value : DecodedValue)

/-- `DecodingResult`: the ordered field list plus unprocessed bytes. -/
inductive DecodingResult where
  | mk (fields : List Decoded) (unprocessed : List Nat)

end

/-- Field number of a `Decoded`. -/
def Decoded.field : Decoded → Nat
  | .mk f _ _ _ => f

/-- Wire type of a `Decoded`. -/
def Decoded.wire_type : Decoded → WireType
  | .mk _ w _ _ => w

/-- `is_object` flag of a `Decoded`. -/
def Decoded.is_object : Decoded → Bool
  | .mk _ _ o _ => o

/-- Value of a `Decoded`. -/
def Decoded.value : Decoded → DecodedValue
  | .mk _ _ _ v => v

/-- Field list of a `DecodingResult`. -/
def DecodingResult.fields : DecodingResult → List Decoded
  | .mk fs _ => fs

/-- Unprocessed bytes of a `DecodingResult`. -/
def DecodingResult.unprocessed : DecodingResult → List Nat
  | .mk _ u => u

/-- `Decoder::next_byte`: pop one byte off the cursor, or fail when the
buffer is exhausted. -/
def Decoder.next_byte : List Nat → Except DecodeError (Nat × List Nat)
  | [] => .error .InvalidMemoryAccess
  | b :: rest => .ok (b, rest)

/-- The loop of `Decoder::next_varint`, with the `value` and `shift`
mutable locals as accumulator arguments (`Decoder::next_byte` is inlined
as the head pattern so the recursion is structural; the updated
accumulator `value | (byte & 0x7F) << shift` is written out in both the
terminating and the continuing branch).  The shift masks its amount
`% 128` and the shifted group is truncated `% 2 ^ 128`, the defined
behaviour of `<<` on the `i128` bit pattern. -/
def Decoder.next_varint_loop : List Nat → Nat → Nat → Except DecodeError (Nat × List Nat)
  | [], _, _ => .error .InvalidMemoryAccess
  | b :: rest, value, shift =>
    if b &&& 0x80 = 0 then .ok (value ||| ((b &&& 0x7F) <<< (shift % 128)) % 2 ^ 128, rest)
    else Decoder.next_varint_loop rest
      (value ||| ((b &&& 0x7F) <<< (shift % 128)) % 2 ^ 128) (shift + 7)

/-- `Decoder::next_varint`: base-128, continuation-bit varint reader. -/
def Decoder.next_varint (l : List Nat) : Except DecodeError (Nat × List Nat) :=
  Decoder.next_varint_loop l 0 0

/-- `Decoder::read`: take exactly `length` bytes, or fail when fewer
remain. -/
def Decoder.read (length : Nat) (l : List Nat) : Except DecodeError (List Nat × List Nat) :=
  if length ≤ l.length then .ok (l.take length, l.drop length)
  else .error .InvalidMemoryAccess

/-- `Decoder::decode`, with an explicit bound `fuel` on the recursion
depth.  Both recursive calls — the nested decode of a length-delimited
payload and the continuation of the field loop — operate on a strictly
shorter cursor, so any `fuel` above the cursor length is enough
(`decodeF_congr`); `Decoder.decode` instantiates `fuel := l.length + 1`.
The field loop `while remaining > 0` becomes recursion on the rest of the
buffer; the trailing `unprocessed: self.read(self.remaining())` is the
empty list, read at loop exit where nothing remains. -/
def Decoder.decodeF : Nat → List Nat → Except DecodeError DecodingResult
  | 0, _ => .error .InvalidMemoryAccess
  | _ + 1, [] => .ok (.mk [] [])
  | fuel + 1, b :: l =>
    match Decoder.next_varint (b :: l) with
    | .error e => .error e
    | .ok (enc128, l1) =>
      match WireType.from_u8 ((enc128 % 2 ^ 32) &&& 7) with
      | .error e => .error e
      | .ok wt =>
        match (match wt with
          | .VarInt =>
            match Decoder.next_varint l1 with
            | .error e => .error e
            | .ok (v, l2) => .ok (false, .BigInt v, l2)
          | .Len =>
            match Decoder.next_varint l1 with
            | .error e => .error e
            | .ok (len128, l2) =>
              match Decoder.read (len128 % 2 ^ 64) l2 with
              | .error e => .error e
              | .ok (sub, l3) =>
                match Decoder.decodeF fuel sub with
                | .ok decoded => .ok (true, .Nested decoded, l3)
                | .error _ => .ok (false, .Buffer sub, l3)
          | .I32 =>
            match Decoder.read 4 l1 with
            | .error e => .error e
            | .ok (bs, l2) => .ok (false, .Buffer bs, l2)
          | .I64 =>
            match Decoder.read 8 l1 with
            | .error e => .error e
            | .ok (bs, l2) => .ok (false, .Buffer bs, l2)
          | _ => .error (.UnsupportedWireType ((enc128 % 2 ^ 32) &&& 7)) :
            Except DecodeError (Bool × DecodedValue × List Nat)) with
        | .error e => .error e
        | .ok (isObj, value, lrest) =>
          match Decoder.decodeF fuel lrest with
          | .error e => .error e
          | .ok r =>
            .ok (.mk (.mk ((enc128 % 2 ^ 32) >>> 3) wt isObj value :: r.fields) r.unprocessed)

/-- `Decoder::decode` on a fresh decoder over the byte buffer `l`. -/
def Decoder.decode (l : List Nat) : Except DecodeError DecodingResult :=
  Decoder.decodeF (l.length + 1) l

example : Decoder.decode [8, 150, 1] =
    .ok (.mk [.mk 1 .VarInt false (.BigInt 150)] []) := rfl

example : Decoder.decode [18, 2, 8, 5] =
    .ok (.mk [.mk 2 .Len true (.Nested (.mk [.mk 1 .VarInt false (.BigInt 5)] []))] []) := rfl

/-- Modelled from the spec: the standard base-128, continuation-bit varint
encoding of a non-negative integer, low 7-bit group first with the high
bit marking continuation.  The repository contains no encoder; the spec's
round-trip property (§8) is stated against this encoding. -/
def encodeVarint (v : Nat) : List Nat :=
  if h : v < 128 then [v]
  else (v % 128 + 128) :: encodeVarint (v / 128)
termination_by v
decreasing_by exact Nat.div_lt_self (by omega) (by omega)

lemma encodeVarint_ne_nil (v : Nat) : encodeVarint v ≠ [] := by
  rw [encodeVarint]
  split <;> simp

/-- A number below `2 ^ 7` is untouched by the low-7-bit mask. -/
lemma and_127_of_lt (v : Nat) (h : v < 128) : v &&& 127 = v :=
  Nat.and_pow_two_sub_one_of_lt_two_pow (n := 7) h

/-- A number below `2 ^ 7` has a clear continuation bit. -/
lemma and_128_of_lt (v : Nat) (h : v < 128) : v &&& 128 = 0 := by
  apply Nat.eq_of_testBit_eq
  intro i
  rw [Nat.testBit_and]
  rw [show (128 : Nat) = 2 ^ 7 from rfl]
  rcases eq_or_ne i 7 with rfl | hi
  · simp [Nat.testBit_lt_two_pow (show v < 2 ^ 7 from h)]
  · simp [Nat.testBit_two_pow_of_ne (fun h7 => hi h7.symm)]

/-- Adding the continuation bit to a 7-bit group: the mask recovers the
group. -/
lemma cont_and_127 (v : Nat) : (v % 128 + 128) &&& 127 = v % 128 := by
  rw [show (127 : Nat) = 2 ^ 7 - 1 from rfl, Nat.and_pow_two_sub_one_eq_mod]
  omega

/-- Adding the continuation bit to a 7-bit group: the continuation test is
nonzero. -/
lemma cont_and_128 (v : Nat) : (v % 128 + 128) &&& 128 ≠ 0 := by
  have hbit : (v % 128 + 128).testBit 7 = true := by
    have h := Nat.testBit_two_pow_add_eq (v % 128) 7
    rw [Nat.testBit_lt_two_pow (show v % 128 < 2 ^ 7 by omega)] at h
    rw [Nat.add_comm] at h
    simpa using h
  intro hz
  have hfalse : ((v % 128 + 128) &&& 128).testBit 7 = false := by rw [hz]; simp
  rw [Nat.testBit_and, hbit, show (128 : Nat) = 2 ^ 7 from rfl,
    Nat.testBit_two_pow_self] at hfalse
  simp at hfalse

/-- Reassembling a split 7-bit group: `v % 128 ||| (v / 128) <<< 7 = v`. -/
lemma mod_or_div_shift (v : Nat) : v % 128 ||| (v / 128) <<< 7 = v := by
  apply Nat.eq_of_testBit_eq
  intro i
  rw [Nat.testBit_lor, show v % 128 = v % 2 ^ 7 from rfl, Nat.testBit_mod_two_pow,
    Nat.testBit_shiftLeft, show v / 128 = v >>> 7 from (Nat.shiftRight_eq_div_pow v 7).symm,
    Nat.testBit_shiftRight]
  rcases Nat.lt_or_ge i 7 with hi | hi
  · have d1 : decide (i < 7) = true := by simpa using hi
    have d2 : decide (i ≥ 7) = false := by simpa using Nat.not_le_of_lt hi
    rw [d1, d2]
    simp
  · have d1 : decide (i < 7) = false := by simpa using Nat.not_lt_of_le hi
    have d2 : decide (i ≥ 7) = true := by simpa using hi
    rw [d1, d2, show 7 + (i - 7) = i by omega]
    simp

/-- Left shift distributes over bitwise or. -/
lemma or_shiftLeft (a b k : Nat) : (a ||| b) <<< k = a <<< k ||| b <<< k := by
  apply Nat.eq_of_testBit_eq
  intro i
  simp [Nat.testBit_lor, Nat.testBit_shiftLeft, Bool.and_or_distrib_left]

/-- The varint loop consumes at least one byte on success. -/
lemma next_varint_loop_length {l : List Nat} {value shift v : Nat} {l' : List Nat}
    (h : Decoder.next_varint_loop l value shift = .ok (v, l')) :
    l'.length < l.length := by
  induction l generalizing value shift with
  | nil => simp [Decoder.next_varint_loop] at h
  | cons b rest ih =>
    rw [Decoder.next_varint_loop] at h
    split at h
    · simp only [Except.ok.injEq, Prod.mk.injEq] at h
      obtain ⟨-, rfl⟩ := h
      simp
    · exact Nat.lt_trans (ih h) (by simp)

/-- `Decoder.next_varint` consumes at least one byte on success. -/
lemma next_varint_length {l : List Nat} {v : Nat} {l' : List Nat}
    (h : Decoder.next_varint l = .ok (v, l')) : l'.length < l.length :=
  next_varint_loop_length h

/-- Characterisation of a successful `Decoder.read`. -/
lemma read_ok {n : Nat} {l bs l' : List Nat}
    (h : Decoder.read n l = .ok (bs, l')) :
    bs = l.take n ∧ l' = l.drop n ∧ n ≤ l.length := by
  rw [Decoder.read] at h
  split at h
  · simp_all
  · simp at h

/-- The varint loop over an encoded value: it consumes exactly the encoding
and ORs the value, shifted into place, onto the accumulator.  The
hypothesis `v * 2 ^ shift < 2 ^ 127` (always true of values that fit the
`i128` accumulation width at the shift they are placed at) lets the `i128`
shift masking drop out. -/
lemma next_varint_loop_encode (v : Nat) :
    ∀ (shift value : Nat) (rest : List Nat), shift ≤ 126 → v * 2 ^ shift < 2 ^ 127 →
    Decoder.next_varint_loop (encodeVarint v ++ rest) value shift =
      .ok (value ||| v <<< shift, rest) := by
  induction v using Nat.strong_induction_on with
  | _ v ih =>
    intro shift value rest hshift hsize
    rw [encodeVarint]
    split
    · rename_i hlt
      rw [List.cons_append, Decoder.next_varint_loop, List.nil_append]
      have hmask : shift % 128 = shift := Nat.mod_eq_of_lt (by omega)
      have hfit : v <<< shift < 2 ^ 128 := by
        rw [Nat.shiftLeft_eq]
        calc v * 2 ^ shift < 2 ^ 127 := hsize
        _ < 2 ^ 128 := by norm_num
      rw [and_127_of_lt v hlt, and_128_of_lt v hlt, if_pos rfl, hmask,
        Nat.mod_eq_of_lt hfit]
    · rename_i hge
      rw [List.cons_append, Decoder.next_varint_loop]
      have hcont := cont_and_128 v
      have hmask : shift % 128 = shift := Nat.mod_eq_of_lt (by omega)
      have hmod : v % 128 ≤ v := Nat.mod_le v 128
      have hfit : (v % 128) <<< shift < 2 ^ 128 := by
        rw [Nat.shiftLeft_eq]
        calc v % 128 * 2 ^ shift ≤ v * 2 ^ shift := Nat.mul_le_mul_right _ hmod
        _ < 2 ^ 127 := hsize
        _ < 2 ^ 128 := by norm_num
      have hv : 128 ≤ v := by omega
      have hshift' : shift ≤ 119 := by
        by_contra hc
        have h1 : 128 * 2 ^ 120 ≤ v * 2 ^ shift := by
          apply Nat.mul_le_mul hv
          exact Nat.pow_le_pow_right (by omega) (by omega)
        have h2 : (2 : Nat) ^ 127 = 128 * 2 ^ 120 := by norm_num
        omega
      have hdivsize : v / 128 * 2 ^ (shift + 7) < 2 ^ 127 := by
        have hle : v / 128 * 2 ^ (shift + 7) ≤ v * 2 ^ shift := by
          calc v / 128 * 2 ^ (shift + 7) = v / 128 * 128 * 2 ^ shift := by
                rw [Nat.pow_add]
                ring
          _ ≤ v * 2 ^ shift := Nat.mul_le_mul_right _ (Nat.div_mul_le_self v 128)
        omega
      have hrec := ih (v / 128) (Nat.div_lt_self (by omega) (by omega)) (shift + 7)
        (value ||| (v % 128) <<< shift) rest (by omega) hdivsize
      have hassemble : value ||| (v % 128) <<< shift ||| (v / 128) <<< (shift + 7) =
          value ||| v <<< shift := by
        rw [Nat.or_assoc]
        congr 1
        rw [Nat.add_comm shift 7, Nat.shiftLeft_add, ← or_shiftLeft, mod_or_div_shift]
      rw [cont_and_127 v, if_neg hcont, hmask, Nat.mod_eq_of_lt hfit, hrec, hassemble]

/-- Varint round trip with a trailing buffer: decoding the encoding of any
value that fits the accumulation width returns the value and leaves the
trailing bytes. -/
lemma next_varint_encode (v : Nat) (rest : List Nat) (h : v < 2 ^ 127) :
    Decoder.next_varint (encodeVarint v ++ rest) = .ok (v, rest) := by
  rw [Decoder.next_varint, next_varint_loop_encode v 0 0 rest (by omega) (by simpa using h)]
  simp

/-- The recursion-depth bound of `Decoder.decodeF` is irrelevant as long
as it exceeds the cursor length: every recursive call (nested payload or
loop continuation) strictly shrinks the cursor. -/
lemma decodeF_congr : ∀ (f1 f2 : Nat) (l : List Nat), l.length < f1 → l.length < f2 →
    Decoder.decodeF f1 l = Decoder.decodeF f2 l := by
  intro f1
  induction f1 with
  | zero => intro f2 l h1 h2; omega
  | succ f1 ih =>
    intro f2 l h1 h2
    match f2, l with
    | f2 + 1, [] => rfl
    | f2 + 1, b :: l =>
      simp only [Decoder.decodeF]
      cases hnv : Decoder.next_varint (b :: l) with
      | error e => rfl
      | ok p =>
        obtain ⟨enc128, l1⟩ := p
        dsimp only
        have hlen1 : l1.length < (b :: l).length := next_varint_length hnv
        cases hwt : WireType.from_u8 ((enc128 % 2 ^ 32) &&& 7) with
        | error e => rfl
        | ok wt =>
          dsimp only
          simp only [List.length_cons] at h1 h2 hlen1
          cases wt with
          | VarInt =>
            dsimp only
            cases hv : Decoder.next_varint l1 with
            | error e => rfl
            | ok q =>
              obtain ⟨v, l2⟩ := q
              dsimp only
              have hlen2 : l2.length < l1.length := next_varint_length hv
              have e2 : Decoder.decodeF f1 l2 = Decoder.decodeF f2 l2 :=
                ih f2 l2 (by omega) (by omega)
              rw [e2]
          | Len =>
            dsimp only
            cases hv : Decoder.next_varint l1 with
            | error e => rfl
            | ok q =>
              obtain ⟨len128, l2⟩ := q
              dsimp only
              have hlen2 : l2.length < l1.length := next_varint_length hv
              cases hr : Decoder.read (len128 % 2 ^ 64) l2 with
              | error e => rfl
              | ok s =>
                obtain ⟨sub, l3⟩ := s
                dsimp only
                obtain ⟨hsub, hl3, hle⟩ := read_ok hr
                have hsublen : sub.length ≤ l2.length := by
                  rw [hsub, List.length_take]
                  omega
                have hl3len : l3.length ≤ l2.length := by
                  rw [hl3, List.length_drop]
                  omega
                have e1 : Decoder.decodeF f1 sub = Decoder.decodeF f2 sub :=
                  ih f2 sub (by omega) (by omega)
                have e3 : Decoder.decodeF f1 l3 = Decoder.decodeF f2 l3 :=
                  ih f2 l3 (by omega) (by omega)
                rw [e1]
                cases hd : Decoder.decodeF f2 sub with
                | ok d =>
                  dsimp only
                  rw [e3]
                | error e =>
                  dsimp only
                  rw [e3]
          | I32 =>
            dsimp only
            cases hr : Decoder.read 4 l1 with
            | error e => rfl
            | ok s =>
              obtain ⟨bs, l2⟩ := s
              dsimp only
              obtain ⟨hbs, hl2, hle⟩ := read_ok hr
              have hl2len : l2.length ≤ l1.length := by
                rw [hl2, List.length_drop]
                omega
              have e2 : Decoder.decodeF f1 l2 = Decoder.decodeF f2 l2 :=
                ih f2 l2 (by omega) (by omega)
              rw [e2]
          | I64 =>
            dsimp only
            cases hr : Decoder.read 8 l1 with
            | error e => rfl
            | ok s =>
              obtain ⟨bs, l2⟩ := s
              dsimp only
              obtain ⟨hbs, hl2, hle⟩ := read_ok hr
              have hl2len : l2.length ≤ l1.length := by
                rw [hl2, List.length_drop]
                omega
              have e2 : Decoder.decodeF f1 l2 = Decoder.decodeF f2 l2 :=
                ih f2 l2 (by omega) (by omega)
              rw [e2]
          | SGroup => rfl
          | EGroup => rfl

/-- One decoding step on a length-delimited field, tag `enc` (wire code 2)
and payload `sub`: the decoder reads the declared length, takes exactly
that many bytes, tries a full recursive decode of them, and on success
stores `Nested` with `is_object = true` while on failure it stores the raw
payload with `is_object = false` and continues with the rest of the
buffer either way. -/
lemma decode_len (enc : Nat) (sub rest : List Nat)
    (h1 : enc < 2 ^ 32) (h2 : enc &&& 7 = 2) (hL : sub.length < 2 ^ 64) :
    Decoder.decode (encodeVarint enc ++ (encodeVarint sub.length ++ (sub ++ rest))) =
      match Decoder.decode sub with
      | .ok dr =>
        (match Decoder.decode rest with
         | .ok rr =>
           .ok (.mk (.mk (enc >>> 3) .Len true (.Nested dr) :: rr.fields) rr.unprocessed)
         | .error e => .error e)
      | .error _ =>
        (match Decoder.decode rest with
         | .ok rr =>
           .ok (.mk (.mk (enc >>> 3) .Len false (.Buffer sub) :: rr.fields) rr.unprocessed)
         | .error e => .error e) := by
  obtain ⟨b, t, hbt⟩ : ∃ b t, encodeVarint enc = b :: t := by
    cases h : encodeVarint enc with
    | nil => exact absurd h (encodeVarint_ne_nil enc)
    | cons b t => exact ⟨b, t, rfl⟩
  rw [show encodeVarint enc ++ (encodeVarint sub.length ++ (sub ++ rest)) =
    b :: (t ++ (encodeVarint sub.length ++ (sub ++ rest))) by rw [hbt]; rfl]
  rw [Decoder.decode]
  simp only [List.length_cons]
  simp only [Decoder.decodeF]
  rw [show (b :: (t ++ (encodeVarint sub.length ++ (sub ++ rest)))) =
    encodeVarint enc ++ (encodeVarint sub.length ++ (sub ++ rest)) by rw [hbt]; rfl]
  rw [next_varint_encode enc _ (by
    calc enc < 2 ^ 32 := h1
    _ < 2 ^ 127 := by norm_num)]
  dsimp only
  rw [Nat.mod_eq_of_lt h1, h2]
  simp only [WireType.from_u8]
  rw [next_varint_encode sub.length _ (by
    calc sub.length < 2 ^ 64 := hL
    _ < 2 ^ 127 := by norm_num)]
  dsimp only
  rw [Nat.mod_eq_of_lt hL, Decoder.read, if_pos (by simp), List.take_left, List.drop_left]
  dsimp only
  have hNsub : sub.length < (t ++ (encodeVarint sub.length ++ (sub ++ rest))).length + 1 := by
    simp [List.length_append]
    omega
  have hNrest : rest.length < (t ++ (encodeVarint sub.length ++ (sub ++ rest))).length + 1 := by
    simp [List.length_append]
    omega
  have esub : Decoder.decodeF ((t ++ (encodeVarint sub.length ++ (sub ++ rest))).length + 1) sub
      = Decoder.decode sub := by
    rw [Decoder.decode]
    exact decodeF_congr _ _ sub hNsub (by omega)
  have erest : Decoder.decodeF ((t ++ (encodeVarint sub.length ++ (sub ++ rest))).length + 1) rest
      = Decoder.decode rest := by
    rw [Decoder.decode]
    exact decodeF_congr _ _ rest hNrest (by omega)
  rw [esub]
  cases hds : Decoder.decode sub with
  | ok d =>
    dsimp only
    rw [erest]
    cases hdr : Decoder.decode rest with
    | ok rr => dsimp only
    | error e => dsimp only
  | error e =>
    dsimp only
    rw [erest]
    cases hdr : Decoder.decode rest with
    | ok rr => dsimp only
    | error e2 => dsimp only

/-- One decoding step on a length-delimited field whose declared length
`L` exceeds the remaining bytes: the read fails and the whole level fails
with `InvalidMemoryAccess` (the spec's `BufferExhausted`). -/
lemma decode_len_short (enc L : Nat) (tail : List Nat)
    (h1 : enc < 2 ^ 32) (h2 : enc &&& 7 = 2) (hL : L < 2 ^ 64)
    (hshort : tail.length < L) :
    Decoder.decode (encodeVarint enc ++ (encodeVarint L ++ tail)) =
      .error .InvalidMemoryAccess := by
  obtain ⟨b, t, hbt⟩ : ∃ b t, encodeVarint enc = b :: t := by
    cases h : encodeVarint enc with
    | nil => exact absurd h (encodeVarint_ne_nil enc)
    | cons b t => exact ⟨b, t, rfl⟩
  rw [show encodeVarint enc ++ (encodeVarint L ++ tail) =
    b :: (t ++ (encodeVarint L ++ tail)) by rw [hbt]; rfl]
  rw [Decoder.decode]
  simp only [List.length_cons]
  simp only [Decoder.decodeF]
  rw [show (b :: (t ++ (encodeVarint L ++ tail))) =
    encodeVarint enc ++ (encodeVarint L ++ tail) by rw [hbt]; rfl]
  rw [next_varint_encode enc _ (by
    calc enc < 2 ^ 32 := h1
    _ < 2 ^ 127 := by norm_num)]
  dsimp only
  rw [Nat.mod_eq_of_lt h1, h2]
  simp only [WireType.from_u8]
  rw [next_varint_encode L _ (by
    calc L < 2 ^ 64 := hL
    _ < 2 ^ 127 := by norm_num)]
  dsimp only
  rw [Nat.mod_eq_of_lt hL, Decoder.read, if_neg (by omega)]

mutual

/-- Well-formedness of a decoding result: at every depth, a field's
`is_object` flag is `true` exactly when its value is `Nested`. -/
def wfResult : DecodingResult → Bool
  | .mk fields _ => wfFields fields

/-- Well-formedness of a field list (see `wfResult`). -/
def wfFields : List Decoded → Bool
  | [] => true
  | f :: fs => wfField f && wfFields fs

/-- Well-formedness of one field: `is_object = true` iff the value is the
`Nested` variant. -/
def wfField : Decoded → Bool
  | .mk _ _ isObj v =>
    match v with
    | .Nested r => isObj && wfResult r
    | _ => !isObj

end

lemma wfResult_eq (r : DecodingResult) : wfResult r = wfFields r.fields := by
  cases r
  rfl

/-- Membership form of the field-list invariant. -/
lemma wfFields_mem {fs : List Decoded} (h : wfFields fs = true) {f : Decoded} (hf : f ∈ fs) :
    f.is_object = true ↔ ∃ n, f.value = DecodedValue.Nested n := by
  induction fs with
  | nil => simp at hf
  | cons g gs ih =>
    rw [wfFields, Bool.and_eq_true] at h
    rcases List.mem_cons.mp hf with rfl | hmem
    · cases f with
      | mk fn wt o v =>
        cases v with
        | BigInt n =>
          simp only [wfField, Bool.not_eq_true'] at h
          simp [Decoded.is_object, Decoded.value, h.1]
        | Buffer bs =>
          simp only [wfField, Bool.not_eq_true'] at h
          simp [Decoded.is_object, Decoded.value, h.1]
        | Nested r =>
          simp only [wfField, Bool.and_eq_true] at h
          simp [Decoded.is_object, Decoded.value, h.1.1]
    · exact ih h.2 hmem

/-- Every successful `decodeF` run returns a well-formed result with an
empty `unprocessed` tail. -/
lemma decodeF_ok_inv : ∀ (fuel : Nat) (l : List Nat) (r : DecodingResult),
    Decoder.decodeF fuel l = .ok r → wfResult r = true ∧ r.unprocessed = [] := by
  intro fuel
  induction fuel with
  | zero =>
    intro l r h
    simp [Decoder.decodeF] at h
  | succ fuel ih =>
    intro l r h
    cases l with
    | nil =>
      simp only [Decoder.decodeF, Except.ok.injEq] at h
      subst h
      exact ⟨rfl, rfl⟩
    | cons b l =>
      simp only [Decoder.decodeF] at h
      cases hnv : Decoder.next_varint (b :: l) with
      | error e => rw [hnv] at h; simp at h
      | ok p =>
        rw [hnv] at h
        obtain ⟨enc128, l1⟩ := p
        dsimp only at h
        cases hwt : WireType.from_u8 ((enc128 % 2 ^ 32) &&& 7) with
        | error e => rw [hwt] at h; simp at h
        | ok wt =>
          rw [hwt] at h
          dsimp only at h
          cases wt with
          | VarInt =>
            dsimp only at h
            cases hv : Decoder.next_varint l1 with
            | error e => rw [hv] at h; simp at h
            | ok q =>
              rw [hv] at h
              obtain ⟨v, l2⟩ := q
              dsimp only at h
              cases hrec : Decoder.decodeF fuel l2 with
              | error e => rw [hrec] at h; simp at h
              | ok r2 =>
                rw [hrec] at h
                dsimp only at h
                simp only [Except.ok.injEq] at h
                subst h
                obtain ⟨hwf2, hunp2⟩ := ih l2 r2 hrec
                refine ⟨?_, by simpa [DecodingResult.unprocessed] using hunp2⟩
                simp [wfResult, wfFields, wfField, ← wfResult_eq, hwf2]
          | Len =>
            dsimp only at h
            cases hv : Decoder.next_varint l1 with
            | error e => rw [hv] at h; simp at h
            | ok q =>
              rw [hv] at h
              obtain ⟨len128, l2⟩ := q
              dsimp only at h
              cases hr : Decoder.read (len128 % 2 ^ 64) l2 with
              | error e => rw [hr] at h; simp at h
              | ok s =>
                rw [hr] at h
                obtain ⟨sub, l3⟩ := s
                dsimp only at h
                cases hsub : Decoder.decodeF fuel sub with
                | ok d =>
                  rw [hsub] at h
                  dsimp only at h
                  cases hrec : Decoder.decodeF fuel l3 with
                  | error e => rw [hrec] at h; simp at h
                  | ok r2 =>
                    rw [hrec] at h
                    dsimp only at h
                    simp only [Except.ok.injEq] at h
                    subst h
                    obtain ⟨hwfd, _⟩ := ih sub d hsub
                    obtain ⟨hwf2, hunp2⟩ := ih l3 r2 hrec
                    refine ⟨?_, by simpa [DecodingResult.unprocessed] using hunp2⟩
                    simp [wfResult, wfFields, wfField, ← wfResult_eq, hwf2, hwfd]
                | error e =>
                  rw [hsub] at h
                  dsimp only at h
                  cases hrec : Decoder.decodeF fuel l3 with
                  | error e2 => rw [hrec] at h; simp at h
                  | ok r2 =>
                    rw [hrec] at h
                    dsimp only at h
                    simp only [Except.ok.injEq] at h
                    subst h
                    obtain ⟨hwf2, hunp2⟩ := ih l3 r2 hrec
                    refine ⟨?_, by simpa [DecodingResult.unprocessed] using hunp2⟩
                    simp [wfResult, wfFields, wfField, ← wfResult_eq, hwf2]
          | I32 =>
            dsimp only at h
            cases hr : Decoder.read 4 l1 with
            | error e => rw [hr] at h; simp at h
            | ok s =>
              rw [hr] at h
              obtain ⟨bs, l2⟩ := s
              dsimp only at h
              cases hrec : Decoder.decodeF fuel l2 with
              | error e => rw [hrec] at h; simp at h
              | ok r2 =>
                rw [hrec] at h
                dsimp only at h
                simp only [Except.ok.injEq] at h
                subst h
                obtain ⟨hwf2, hunp2⟩ := ih l2 r2 hrec
                refine ⟨?_, by simpa [DecodingResult.unprocessed] using hunp2⟩
                simp [wfResult, wfFields, wfField, ← wfResult_eq, hwf2]
          | I64 =>
            dsimp only at h
            cases hr : Decoder.read 8 l1 with
            | error e => rw [hr] at h; simp at h
            | ok s =>
              rw [hr] at h
              obtain ⟨bs, l2⟩ := s
              dsimp only at h
              cases hrec : Decoder.decodeF fuel l2 with
              | error e => rw [hrec] at h; simp at h
              | ok r2 =>
                rw [hrec] at h
                dsimp only at h
                simp only [Except.ok.injEq] at h
                subst h
                obtain ⟨hwf2, hunp2⟩ := ih l2 r2 hrec
                refine ⟨?_, by simpa [DecodingResult.unprocessed] using hunp2⟩
                simp [wfResult, wfFields, wfField, ← wfResult_eq, hwf2]
          | SGroup => dsimp only at h; simp at h
          | EGroup => dsimp only at h; simp at h

/-- Every successful top-level decode is well formed and leaves nothing
unprocessed. -/
lemma decode_ok_inv {l : List Nat} {r : DecodingResult}
    (h : Decoder.decode l = .ok r) : wfResult r = true ∧ r.unprocessed = [] :=
  decodeF_ok_inv _ l r h

/-- Decimal digits of a natural number (Rust's `Debug`/`Display` form for
unsigned integers), with a structural fuel so concrete renderings reduce
in the kernel; `fuel = n + 1` always suffices since the value shrinks by a
factor of ten each step. -/
def natDecimalAux : Nat → Nat → List Char → List Char
  | 0, _, acc => acc
  | fuel + 1, n, acc =>
    if n < 10 then Char.ofNat (48 + n % 10) :: acc
    else natDecimalAux fuel (n / 10) (Char.ofNat (48 + n % 10) :: acc)

/-- Decimal rendering of a natural number. -/
def natDecimal (n : Nat) : List Char :=
  natDecimalAux (n + 1) n []

example : natDecimal 150 = ['1', '5', '0'] := rfl

example : natDecimal 0 = ['0'] := rfl

/-- Rust `Debug` rendering of an `i128` given by its bit pattern: plain
decimal when non-negative, minus sign and two's-complement magnitude
otherwise. -/
def i128Repr (v : Nat) : List Char :=
  if v < 2 ^ 127 then natDecimal v else '-' :: natDecimal (2 ^ 128 - v)

/-- Comma-space join, the separator layout Rust's `Debug` uses between
list elements (and the counterpart of `split(", ")`). -/
def joinCS : List (List Char) → List Char
  | [] => []
  | [x] => x
  | x :: y :: xs => x ++ ',' :: ' ' :: joinCS (y :: xs)

/-- Rust `Debug` rendering of a `Vec<u8>`: `[b1, b2, ...]`. -/
def vecRepr (bs : List Nat) : List Char :=
  '[' :: (joinCS (bs.map natDecimal) ++ [']'])

example : vecRepr [1, 2] = "[1, 2]".toList := rfl

example : vecRepr [] = "[]".toList := rfl

/-- Rust `Debug` rendering of a `bool`. -/
def boolRepr : Bool → List Char
  | true => "true".toList
  | false => "false".toList

/-- Rust `Debug` rendering of a `WireType` (the derived variant names). -/
def debugWireType : WireType → List Char
  | .VarInt => "VarInt".toList
  | .I64 => "I64".toList
  | .Len => "Len".toList
  | .SGroup => "SGroup".toList
  | .EGroup => "EGroup".toList
  | .I32 => "I32".toList

mutual

/-- The derived Rust `Debug` rendering of a `DecodedValue`, as produced by
`format!("\x7b:?\x7d", field.value)` in `simplify`. -/
def debugValue : DecodedValue → List Char
  | .BigInt v => "BigInt(".toList ++ i128Repr v ++ [')']
  | .Buffer bytes => "Buffer(".toList ++ vecRepr bytes ++ [')']
  | .Nested r => "Nested(".toList ++ debugResult r ++ [')']

/-- Derived `Debug` rendering of a `DecodingResult`. -/
def debugResult : DecodingResult → List Char
  | .mk fields unprocessed =>
    "DecodingResult \x7b fields: [".toList ++
      joinCS (debugFields fields) ++ "], unprocessed: ".toList ++
      vecRepr unprocessed ++ " \x7d".toList

/-- Derived `Debug` renderings of a field list. -/
def debugFields : List Decoded → List (List Char)
  | [] => []
  | f :: fs => debugField f :: debugFields fs

/-- Derived `Debug` rendering of a `Decoded`. -/
def debugField : Decoded → List Char
  | .mk f wt o v =>
    "Decoded \x7b field: ".toList ++ natDecimal f ++ ", wire_type: ".toList ++
      debugWireType wt ++ ", is_object: ".toList ++ boolRepr o ++ ", value: ".toList ++
      debugValue v ++ " \x7d".toList

end

example : debugValue (.BigInt 150) = "BigInt(150)".toList := rfl

example : debugValue (.Buffer [116, 101]) = "Buffer([116, 101])".toList := rfl

mutual

/-- `SimpleDecodedValue` (src/decode.rs): a rendered string or a nested
simplified result. -/
inductive SimpleDecodedValue where
  | String (s : List Char)
  | Nested (r : SimpleDecodingResult)

/-- `SimpleDecoded` (src/decode.rs). -/
inductive SimpleDecoded where
  | mk (field : Nat) (wire_type : List Char) (is_object : Bool) (value : SimpleDecodedValue)

/-- `SimpleDecodingResult` (src/decode.rs). -/
inductive SimpleDecodingResult where
  | mk (fields : List SimpleDecoded)

end

/-- Field number of a `SimpleDecoded`. -/
def SimpleDecoded.field : SimpleDecoded → Nat
  | .mk f _ _ _ => f

/-- Wire-type label of a `SimpleDecoded`. -/
def SimpleDecoded.wire_type : SimpleDecoded → List Char
  | .mk _ w _ _ => w

/-- `is_object` flag of a `SimpleDecoded`. -/
def SimpleDecoded.is_object : SimpleDecoded → Bool
  | .mk _ _ o _ => o

/-- Value of a `SimpleDecoded`. -/
def SimpleDecoded.value : SimpleDecoded → SimpleDecodedValue
  | .mk _ _ _ v => v

/-- Field list of a `SimpleDecodingResult`. -/
def SimpleDecodingResult.fields : SimpleDecodingResult → List SimpleDecoded
  | .mk fs => fs

/-- `wire_type_to_str` (src/decode.rs): the fixed label strings. -/
def wire_type_to_str : WireType → List Char
  | .VarInt => "varint".toList
  | .I64 => "i64".toList
  | .Len => "len".toList
  | .I32 => "i32".toList
  | _ => "unknown".toList

/-- `DecodedValue::unwrap_nested`; the `panic` on a non-`Nested` value is
modelled as `none`. -/
def DecodedValue.unwrap_nested : DecodedValue → Option DecodingResult
  | .Nested result => some result
  | _ => none

mutual

/-- `simplify` (src/decode.rs), with the panic of `unwrap_nested`
surfacing as `none` (`unwrap_nested` is inlined as a match on the value so
the recursion into the nested result is structural). -/
def simplify : DecodingResult → Option SimpleDecodingResult
  | .mk fields _ => (simplifyFields fields).map SimpleDecodingResult.mk

/-- The field loop of `simplify`. -/
def simplifyFields : List Decoded → Option (List SimpleDecoded)
  | [] => some []
  | f :: fs =>
    match simplifyField f, simplifyFields fs with
    | some g, some gs => some (g :: gs)
    | _, _ => none

/-- The per-field body of `simplify`. -/
def simplifyField : Decoded → Option SimpleDecoded
  | .mk f wt o v =>
    if o then
      match v with
      | .Nested r =>
        (simplify r).map fun s => SimpleDecoded.mk f (wire_type_to_str wt) o (.Nested s)
      | _ => none
    else some (.mk f (wire_type_to_str wt) o (.String (debugValue v)))

end

/-- Pointwise relation between an input field and its simplified form:
field number, wire-type label and `is_object` are preserved, non-object
values are debug-rendered, and object values recurse through
`simplify`. -/
def SimRel (f : Decoded) (g : SimpleDecoded) : Prop :=
  g.field = f.field ∧ g.wire_type = wire_type_to_str f.wire_type ∧
  g.is_object = f.is_object ∧
  (f.is_object = false → g.value = SimpleDecodedValue.String (debugValue f.value)) ∧
  (f.is_object = true → ∃ sub ssub, f.value = DecodedValue.Nested sub ∧
    simplify sub = some ssub ∧ g.value = SimpleDecodedValue.Nested ssub)

mutual

/-- On a well-formed result, `simplify` succeeds and relates the fields
pointwise. -/
theorem wf_simplify_result : ∀ (r : DecodingResult), wfResult r = true →
    ∃ s, simplify r = some s ∧ List.Forall₂ SimRel r.fields s.fields := by
  intro r h
  cases r with
  | mk fs u =>
    rw [wfResult] at h
    obtain ⟨gs, hgs, hrel⟩ := wf_simplify_fields fs h
    refine ⟨SimpleDecodingResult.mk gs, ?_, ?_⟩
    · rw [simplify, hgs]
      rfl
    · simpa [DecodingResult.fields, SimpleDecodingResult.fields] using hrel

/-- On a well-formed field list, the loop of `simplify` succeeds. -/
theorem wf_simplify_fields : ∀ (fs : List Decoded), wfFields fs = true →
    ∃ gs, simplifyFields fs = some gs ∧ List.Forall₂ SimRel fs gs := by
  intro fs h
  cases fs with
  | nil => exact ⟨[], rfl, List.Forall₂.nil⟩
  | cons f fs' =>
    rw [wfFields, Bool.and_eq_true] at h
    obtain ⟨g, hg, hrelf⟩ := wf_simplify_field f h.1
    obtain ⟨gs, hgs, hrel⟩ := wf_simplify_fields fs' h.2
    refine ⟨g :: gs, ?_, List.Forall₂.cons hrelf hrel⟩
    rw [simplifyFields, hg, hgs]

/-- On a well-formed field, the body of `simplify` succeeds. -/
theorem wf_simplify_field : ∀ (f : Decoded), wfField f = true →
    ∃ g, simplifyField f = some g ∧ SimRel f g := by
  intro f h
  cases f with
  | mk fn wt o v =>
    cases v with
    | BigInt n =>
      simp only [wfField, Bool.not_eq_true'] at h
      subst h
      refine ⟨.mk fn (wire_type_to_str wt) false
        (.String (debugValue (.BigInt n))), rfl, ?_⟩
      exact ⟨rfl, rfl, rfl, fun _ => rfl,
        fun hobj => by simp [Decoded.is_object] at hobj⟩
    | Buffer bs =>
      simp only [wfField, Bool.not_eq_true'] at h
      subst h
      refine ⟨.mk fn (wire_type_to_str wt) false
        (.String (debugValue (.Buffer bs))), rfl, ?_⟩
      exact ⟨rfl, rfl, rfl, fun _ => rfl,
        fun hobj => by simp [Decoded.is_object] at hobj⟩
    | Nested r =>
      simp only [wfField, Bool.and_eq_true] at h
      obtain ⟨ho, hwf⟩ := h
      subst ho
      obtain ⟨s, hs, _⟩ := wf_simplify_result r hwf
      refine ⟨.mk fn (wire_type_to_str wt) true (.Nested s), ?_, ?_⟩
      · rw [simplifyField]
        simp [hs]
      · exact ⟨rfl, rfl, rfl, fun hobj => by simp [Decoded.is_object] at hobj,
          fun _ => ⟨r, s, rfl, hs, rfl⟩⟩

end

/-- Rust `str::strip_prefix`: drop the pattern from the front, or fail. -/
def strip_front : List Char → List Char → Option (List Char)
  | [], l => some l
  | _ :: _, [] => none
  | p :: ps, c :: cs => if c = p then strip_front ps cs else none

/-- Rust `str::strip_suffix`: drop the pattern from the back, or fail. -/
def strip_end (suf l : List Char) : Option (List Char) :=
  (strip_front suf.reverse l.reverse).map List.reverse

/-- Prepend a character onto the first group of a split result. -/
def consHead (c : Char) : List (List Char) → List (List Char)
  | [] => [[c]]
  | g :: gs => (c :: g) :: gs

/-- Rust `str::split(", ")`: cut at every (leftmost-first) occurrence of
the two-character separator comma-space. -/
def splitCS : List Char → List (List Char)
  | [] => [[]]
  | [c] => [[c]]
  | c :: d :: rest =>
    if c = ',' ∧ d = ' ' then [] :: splitCS rest
    else consHead c (splitCS (d :: rest))

example : splitCS "116, 101, 7".toList = ["116".toList, "101".toList, "7".toList] := rfl

example : splitCS "".toList = [[]] := rfl

/-- Accumulated value of a decimal digit string. -/
def digitsToNat (l : List Char) : Nat :=
  l.foldl (fun a c => a * 10 + (c.toNat - 48)) 0

/-- Rust `str::parse::<u8>`: an optional `+` sign, then one or more ASCII
digits whose value fits in eight bits. -/
def parseU8 (s : List Char) : Option Nat :=
  match (match s with
    | '+' :: u => u
    | _ => s) with
  | [] => none
  | t =>
    if t.all Char.isDigit then
      if digitsToNat t < 256 then some (digitsToNat t) else none
    else none

example : parseU8 "150".toList = some 150 := rfl

example : parseU8 "300".toList = none := rfl

example : parseU8 "".toList = none := rfl

/-- Rust `String::from_utf8` (via `std::str::from_utf8` validation),
decoding a byte sequence as UTF-8: one to four byte sequences with the
standard lead/continuation ranges, rejecting overlong forms, surrogates
and values beyond `0x10FFFF`. -/
def from_utf8 : List Nat → Option (List Char)
  | [] => some []
  | b :: rest =>
    if b < 0x80 then
      (from_utf8 rest).map fun cs => Char.ofNat b :: cs
    else if b < 0xC2 then none
    else if b < 0xE0 then
      match rest with
      | c1 :: r =>
        if 0x80 ≤ c1 ∧ c1 < 0xC0 then
          (from_utf8 r).map fun cs => Char.ofNat ((b - 0xC0) * 64 + (c1 - 0x80)) :: cs
        else none
      | [] => none
    else if b < 0xF0 then
      match rest with
      | c1 :: c2 :: r =>
        if (if b = 0xE0 then 0xA0 ≤ c1 ∧ c1 < 0xC0
            else if b = 0xED then 0x80 ≤ c1 ∧ c1 < 0xA0
            else 0x80 ≤ c1 ∧ c1 < 0xC0) ∧ 0x80 ≤ c2 ∧ c2 < 0xC0 then
          (from_utf8 r).map fun cs =>
            Char.ofNat ((b - 0xE0) * 4096 + (c1 - 0x80) * 64 + (c2 - 0x80)) :: cs
        else none
      | _ => none
    else if b ≤ 0xF4 then
      match rest with
      | c1 :: c2 :: c3 :: r =>
        if (if b = 0xF0 then 0x90 ≤ c1 ∧ c1 < 0xC0
            else if b = 0xF4 then 0x80 ≤ c1 ∧ c1 < 0x90
            else 0x80 ≤ c1 ∧ c1 < 0xC0) ∧ 0x80 ≤ c2 ∧ c2 < 0xC0 ∧
            0x80 ≤ c3 ∧ c3 < 0xC0 then
          (from_utf8 r).map fun cs =>
            Char.ofNat ((b - 0xF0) * 262144 + (c1 - 0x80) * 4096 +
              (c2 - 0x80) * 64 + (c3 - 0x80)) :: cs
        else none
      | _ => none
    else none

example : from_utf8 [116, 101, 115, 116, 105, 110, 103] = some "testing".toList := rfl

example : from_utf8 [0xFF] = none := rfl

example : from_utf8 [0xC3, 0xA9] = some "é".toList := rfl

/-- The `parse_buffer` helper inside the `Display` implementation for
`SimpleDecodedValue`: recognise the literal `Buffer([b1, b2, ...])`
rendering, re-parse the listed bytes and decode them as UTF-8 text. -/
def parse_buffer (input : List Char) : Option (List Char) :=
  match strip_front "Buffer([".toList input with
  | none => none
  | some start =>
    match strip_end "])".toList start with
    | none => none
    | some trimmed =>
      match (splitCS trimmed).mapM parseU8 with
      | none => none
      | some bytes => from_utf8 bytes

/-- The `SimpleDecodedValue::String` arm of `Display::fmt`:
`parse_buffer(s).unwrap_or_else(|| s.clone())`. -/
def display_string (s : List Char) : List Char :=
  (parse_buffer s).getD s

example : display_string "Buffer([116, 101, 115, 116, 105, 110, 103])".toList =
    "testing".toList := rfl

example : display_string "BigInt(150)".toList = "BigInt(150)".toList := rfl

example : display_string "Buffer([])".toList = "Buffer([])".toList := rfl

example : display_string "Buffer([0, 149])".toList = "Buffer([0, 149])".toList := rfl

lemma strip_front_append : ∀ (p m : List Char), strip_front p (p ++ m) = some m := by
  intro p
  induction p with
  | nil => intro m; rfl
  | cons c p ih =>
    intro m
    rw [List.cons_append, strip_front, if_pos rfl]
    exact ih m

lemma strip_end_append (suf m : List Char) : strip_end suf (m ++ suf) = some m := by
  rw [strip_end, List.reverse_append, strip_front_append]
  simp

lemma splitCS_no_comma : ∀ (x : List Char), (∀ c ∈ x, c ≠ ',') → splitCS x = [x] := by
  intro x
  induction x with
  | nil => intro h; rfl
  | cons c x' ih =>
    intro h
    cases x' with
    | nil => rfl
    | cons d x'' =>
      rw [splitCS, if_neg (by simp [h c (by simp)])]
      rw [ih (fun a ha => h a (by simp [ha]))]
      rfl

lemma splitCS_append_sep : ∀ (x t : List Char), (∀ c ∈ x, c ≠ ',') →
    splitCS (x ++ ',' :: ' ' :: t) = x :: splitCS t := by
  intro x
  induction x with
  | nil =>
    intro t h
    rw [List.nil_append, splitCS, if_pos ⟨rfl, rfl⟩]
  | cons c x' ih =>
    intro t h
    have hc : c ≠ ',' := h c (by simp)
    have h' : ∀ a ∈ x', a ≠ ',' := fun a ha => h a (by simp [ha])
    rw [List.cons_append]
    cases hx : x' ++ ',' :: ' ' :: t with
    | nil => exact absurd hx (by simp)
    | cons d rest =>
      rw [splitCS, if_neg (by simp [hc]), ← hx, ih t h']
      rfl

lemma splitCS_joinCS : ∀ (xs : List (List Char)), xs ≠ [] →
    (∀ x ∈ xs, ∀ c ∈ x, c ≠ ',') → splitCS (joinCS xs) = xs := by
  intro xs
  induction xs with
  | nil => intro h; exact absurd rfl h
  | cons x xs' ih =>
    intro _ h
    cases xs' with
    | nil => exact splitCS_no_comma x (h x (by simp))
    | cons y ys =>
      rw [joinCS, splitCS_append_sep x _ (h x (by simp))]
      rw [ih (by simp) (fun a ha c hc => h a (by simp [ha]) c hc)]

set_option maxRecDepth 8192 in
lemma parseU8_natDecimal : ∀ b, b < 256 → parseU8 (natDecimal b) = some b := by decide

set_option maxRecDepth 8192 in
lemma natDecimal_no_comma : ∀ b, b < 256 → ∀ c ∈ natDecimal b, c ≠ ',' := by decide

lemma mapM_parseU8 : ∀ (bs : List Nat), (∀ b ∈ bs, b < 256) →
    (bs.map natDecimal).mapM parseU8 = some bs := by
  intro bs h
  induction bs with
  | nil => rfl
  | cons b bs' ih =>
    rw [List.map_cons, List.mapM_cons, parseU8_natDecimal b (h b (by simp)),
      ih (fun a ha => h a (by simp [ha]))]
    rfl

lemma debugValue_buffer (bs : List Nat) :
    debugValue (.Buffer bs) =
      "Buffer([".toList ++ (joinCS (bs.map natDecimal) ++ "])".toList) := by
  rw [debugValue, vecRepr,
    show "Buffer([".toList = "Buffer(".toList ++ ['['] from rfl,
    show "])".toList = [']'] ++ [')'] from rfl]
  simp [List.append_assoc]

/-- The display convenience step inverts the debug rendering of a
non-empty byte buffer: parsing the literal `Buffer([...])` text recovers
the bytes and hands them to the UTF-8 decoder. -/
lemma parse_buffer_debug (bs : List Nat) (hne : bs ≠ []) (hlt : ∀ b ∈ bs, b < 256) :
    parse_buffer (debugValue (.Buffer bs)) = from_utf8 bs := by
  have h1 : strip_front "Buffer([".toList (debugValue (.Buffer bs)) =
      some (joinCS (bs.map natDecimal) ++ "])".toList) := by
    rw [debugValue_buffer]
    exact strip_front_append _ _
  have h2 : strip_end "])".toList (joinCS (bs.map natDecimal) ++ "])".toList) =
      some (joinCS (bs.map natDecimal)) := strip_end_append _ _
  have h3 : splitCS (joinCS (bs.map natDecimal)) = bs.map natDecimal :=
    splitCS_joinCS _ (by simpa using hne)
      (by
        intro x hx c hc
        obtain ⟨b, hb, rfl⟩ := List.mem_map.mp hx
        exact natDecimal_no_comma b (hlt b hb) c hc)
  have h4 : (bs.map natDecimal).mapM parseU8 = some bs := mapM_parseU8 bs hlt
  rw [parse_buffer, h1]
  dsimp only
  rw [h2]
  dsimp only
  rw [h3, h4]

lemma next_varint_loop_error : ∀ (l : List Nat) (value shift : Nat) (e : DecodeError),
    Decoder.next_varint_loop l value shift = .error e → e = .InvalidMemoryAccess := by
  intro l
  induction l with
  | nil =>
    intro value shift e h
    rw [Decoder.next_varint_loop] at h
    exact ((Except.error.injEq _ _).mp h).symm
  | cons b rest ih =>
    intro value shift e h
    rw [Decoder.next_varint_loop] at h
    split at h
    · exact absurd h (by simp)
    · exact ih _ _ e h

lemma next_varint_loop_all_cont : ∀ (l : List Nat) (value shift : Nat),
    (∀ c ∈ l, c &&& 0x80 ≠ 0) →
    Decoder.next_varint_loop l value shift = .error .InvalidMemoryAccess := by
  intro l
  induction l with
  | nil => intro value shift _; rfl
  | cons b rest ih =>
    intro value shift h
    rw [Decoder.next_varint_loop, if_neg (h b (by simp))]
    exact ih _ _ (fun c hc => h c (by simp [hc]))

lemma next_varint_loop_stops : ∀ (l1 : List Nat) (b : Nat) (l2 : List Nat)
    (value shift : Nat), (∀ c ∈ l1, c &&& 0x80 ≠ 0) → b &&& 0x80 = 0 →
    ∃ v, Decoder.next_varint_loop (l1 ++ b :: l2) value shift = .ok (v, l2) := by
  intro l1
  induction l1 with
  | nil =>
    intro b l2 value shift _ hb
    rw [List.nil_append, Decoder.next_varint_loop, if_pos hb]
    exact ⟨_, rfl⟩
  | cons c l1' ih =>
    intro b l2 value shift h hb
    rw [List.cons_append, Decoder.next_varint_loop, if_neg (h c (by simp))]
    exact ih b l2 _ _ (fun a ha => h a (by simp [ha])) hb

/-- Claim C1: for every length-delimited field the decoder reads a varint
length, takes exactly that many payload bytes and recursively decodes
them: on success the value is `Nested` of the very result of decoding the
payload independently with `is_object = true`; on failure the value is
the raw payload bytes with `is_object = false` and no error reaches the
caller — decoding continues with the rest of the buffer either way. -/
theorem claim_C1 : ∀ (enc : Nat) (sub rest : List Nat) (rr : DecodingResult),
    enc < 2 ^ 32 → enc &&& 7 = 2 → sub.length < 2 ^ 64 →
    Decoder.decode rest = .ok rr →
    (∀ dr, Decoder.decode sub = .ok dr →
      Decoder.decode (encodeVarint enc ++ (encodeVarint sub.length ++ (sub ++ rest))) =
        .ok (.mk (.mk (enc >>> 3) .Len true (.Nested dr) :: rr.fields) rr.unprocessed)) ∧
    (∀ e, Decoder.decode sub = .error e →
      Decoder.decode (encodeVarint enc ++ (encodeVarint sub.length ++ (sub ++ rest))) =
        .ok (.mk (.mk (enc >>> 3) .Len false (.Buffer sub) :: rr.fields) rr.unprocessed)) := by
  intro enc sub rest rr h1 h2 h3 hrest
  constructor
  · intro dr hsub
    rw [decode_len enc sub rest h1 h2 h3, hsub]
    dsimp only
    rw [hrest]
  · intro e hsub
    rw [decode_len enc sub rest h1 h2 h3, hsub]
    dsimp only
    rw [hrest]

theorem claim_C1_witness :
    (18 : Nat) < 2 ^ 32 ∧ (18 : Nat) &&& 7 = 2 ∧ ([8, 5] : List Nat).length < 2 ^ 64 ∧
    Decoder.decode [8, 5] = .ok (.mk [.mk 1 .VarInt false (.BigInt 5)] []) ∧
    Decoder.decode (encodeVarint 18 ++ (encodeVarint ([8, 5] : List Nat).length ++
        ([8, 5] ++ ([] : List Nat)))) =
      .ok (.mk [.mk 2 .Len true (.Nested (.mk [.mk 1 .VarInt false (.BigInt 5)] []))] []) :=
  ⟨by norm_num, by decide, by decide, rfl,
    (claim_C1 18 [8, 5] [] (.mk [] []) (by norm_num) (by decide) (by decide) rfl).1
      (.mk [.mk 1 .VarInt false (.BigInt 5)] []) rfl⟩

/-- Claim C2 fails on the code: `WireType::from_u8` does not map the
wire-type codes 3 and 4 to the `SGroup`/`EGroup` variants — it rejects
them with `UnsupportedWireType` already at classification. -/
theorem claim_C2_counterexample :
    WireType.from_u8 3 = .error (.UnsupportedWireType 3) ∧
    WireType.from_u8 4 = .error (.UnsupportedWireType 4) ∧
    WireType.from_u8 3 ≠ .ok .SGroup ∧
    WireType.from_u8 4 ≠ .ok .EGroup := by
  refine ⟨rfl, rfl, ?_, ?_⟩ <;> simp [WireType.from_u8]

/-- Claim C2, amended: the classifier maps only the codes 0, 1, 2 and 5
to wire types; the codes 3 and 4 (groups), 6 and everything else fail
with `UnsupportedWireType(code)` already at classification, so the
`SGroup`/`EGroup` variants are never produced and a tag carrying wire
code 3 or 4 makes the whole decode fail with that same error. -/
theorem claim_C2 :
    (∀ v, WireType.from_u8 v =
      if v = 0 then .ok .VarInt else if v = 1 then .ok .I64 else if v = 2 then .ok .Len
      else if v = 5 then .ok .I32 else .error (.UnsupportedWireType v)) ∧
    (∀ v, WireType.from_u8 v ≠ .ok .SGroup ∧ WireType.from_u8 v ≠ .ok .EGroup) ∧
    Decoder.decode [27] = .error (.UnsupportedWireType 3) ∧
    Decoder.decode [28] = .error (.UnsupportedWireType 4) := by
  refine ⟨?_, ?_, rfl, rfl⟩
  · intro v
    rcases v with _ | _ | _ | _ | _ | _ | n <;> rfl
  · intro v
    rcases v with _ | _ | _ | _ | _ | _ | n <;> simp [WireType.from_u8]

theorem claim_C2_witness :
    WireType.from_u8 6 = .error (.UnsupportedWireType 6) ∧
    WireType.from_u8 6 ≠ .ok .SGroup :=
  ⟨by simpa using claim_C2.1 6, (claim_C2.2.1 6).1⟩

/-- Claim C3: every non-negative value representable in the `i128`
accumulation width round-trips through base-128 varint encoding and the
decoder's varint reader. -/
theorem claim_C3 : ∀ v : Nat, v < 2 ^ 127 →
    Decoder.next_varint (encodeVarint v) = .ok (v, []) := by
  intro v h
  have hrt := next_varint_encode v [] h
  rwa [List.append_nil] at hrt

theorem claim_C3_witness :
    ((2 : Nat) ^ 33 < 2 ^ 127) ∧
    Decoder.next_varint (encodeVarint (2 ^ 33)) = .ok (2 ^ 33, []) ∧
    Decoder.next_varint (encodeVarint 0) = .ok (0, []) ∧
    Decoder.next_varint (encodeVarint 127) = .ok (127, []) ∧
    Decoder.next_varint (encodeVarint 128) = .ok (128, []) ∧
    Decoder.next_varint (encodeVarint 300) = .ok (300, []) :=
  ⟨by norm_num, claim_C3 (2 ^ 33) (by norm_num), claim_C3 0 (by norm_num),
    claim_C3 127 (by norm_num), claim_C3 128 (by norm_num), claim_C3 300 (by norm_num)⟩

/-- Claim C4: a length-delimited field whose declared length exceeds the
remaining bytes fails that decoding level with the buffer-exhausted error
(`InvalidMemoryAccess`); when such a truncated stream is itself the
payload of an enclosing length-delimited field, the outer field falls
back to raw bytes instead of propagating the error. -/
theorem claim_C4 : ∀ (enc2 enc L : Nat) (tail inner : List Nat),
    enc2 < 2 ^ 32 → enc2 &&& 7 = 2 → enc < 2 ^ 32 → enc &&& 7 = 2 → L < 2 ^ 64 →
    tail.length < L →
    inner = encodeVarint enc ++ (encodeVarint L ++ tail) → inner.length < 2 ^ 64 →
    Decoder.decode inner = .error .InvalidMemoryAccess ∧
    Decoder.decode (encodeVarint enc2 ++ (encodeVarint inner.length ++ (inner ++ []))) =
      .ok (.mk [.mk (enc2 >>> 3) .Len false (.Buffer inner)] []) := by
  intro enc2 enc L tail inner h2a h2b h1a h1b hL hshort hinner hilen
  have herr : Decoder.decode inner = .error .InvalidMemoryAccess := by
    rw [hinner]
    exact decode_len_short enc L tail h1a h1b hL hshort
  refine ⟨herr, ?_⟩
  rw [decode_len enc2 inner [] h2a h2b hilen, herr]
  rfl

theorem claim_C4_witness :
    (10 : Nat) < 2 ^ 32 ∧ (10 : Nat) &&& 7 = 2 ∧ (5 : Nat) < 2 ^ 64 ∧
    ([] : List Nat).length < 5 ∧
    ((encodeVarint 10 ++ (encodeVarint 5 ++ [])).length < 2 ^ 64) ∧
    Decoder.decode (encodeVarint 10 ++ (encodeVarint 5 ++ [])) =
      .error .InvalidMemoryAccess ∧
    Decoder.decode (encodeVarint 10 ++
        (encodeVarint (encodeVarint 10 ++ (encodeVarint 5 ++ [])).length ++
          ((encodeVarint 10 ++ (encodeVarint 5 ++ [])) ++ []))) =
      .ok (.mk [.mk 1 .Len false (.Buffer (encodeVarint 10 ++ (encodeVarint 5 ++ [])))] []) := by
  have hlen : (encodeVarint 10 ++ (encodeVarint 5 ++ ([] : List Nat))).length < 2 ^ 64 := by
    simp [encodeVarint]
  have h := claim_C4 10 10 5 [] (encodeVarint 10 ++ (encodeVarint 5 ++ []))
    (by norm_num) (by decide) (by norm_num) (by decide) (by norm_num) (by decide) rfl hlen
  exact ⟨by norm_num, by decide, by norm_num, by decide, hlen, h.1, h.2⟩

/-- Claim C5: whenever the top-level decode succeeds the result's
`unprocessed` byte list is empty (the field loop only stops once nothing
remains), and on a decode error no result value exists — the `Except`
returned to the caller is exclusively the error. -/
theorem claim_C5 :
    (∀ (l : List Nat) (r : DecodingResult), Decoder.decode l = .ok r →
      r.unprocessed = []) ∧
    (∀ (l : List Nat) (e : DecodeError), Decoder.decode l = .error e →
      ¬ ∃ r, Decoder.decode l = .ok r) := by
  constructor
  · intro l r h
    exact (decode_ok_inv h).2
  · intro l e h hex
    obtain ⟨r, hr⟩ := hex
    rw [h] at hr
    exact Except.noConfusion hr

theorem claim_C5_witness :
    Decoder.decode [8, 1] = .ok (.mk [.mk 1 .VarInt false (.BigInt 1)] []) ∧
    (DecodingResult.mk [.mk 1 .VarInt false (.BigInt 1)] []).unprocessed = [] :=
  ⟨rfl, claim_C5.1 [8, 1] (.mk [.mk 1 .VarInt false (.BigInt 1)] []) rfl⟩

/-- Claim C6: the varint reader consumes bytes exactly while the
continuation (high) bit is set — however many there are — and stops right
after the first byte with a clear high bit; its only failure mode is the
buffer-exhausted error, produced precisely when every remaining byte has
the continuation bit set; groups accumulate least-significant first
(`0x96 0x01` is 150). -/
theorem claim_C6 :
    (∀ (l : List Nat) (e : DecodeError), Decoder.next_varint l = .error e →
      e = .InvalidMemoryAccess) ∧
    (∀ l : List Nat, (∀ c ∈ l, c &&& 0x80 ≠ 0) →
      Decoder.next_varint l = .error .InvalidMemoryAccess) ∧
    (∀ (l1 : List Nat) (b : Nat) (l2 : List Nat), (∀ c ∈ l1, c &&& 0x80 ≠ 0) →
      b &&& 0x80 = 0 → ∃ v, Decoder.next_varint (l1 ++ b :: l2) = .ok (v, l2)) ∧
    Decoder.next_varint [150, 1] = .ok (150, []) := by
  refine ⟨?_, ?_, ?_, rfl⟩
  · intro l e h
    exact next_varint_loop_error l 0 0 e h
  · intro l h
    exact next_varint_loop_all_cont l 0 0 h
  · intro l1 b l2 h hb
    exact next_varint_loop_stops l1 b l2 0 0 h hb

theorem claim_C6_witness :
    ((128 : Nat) &&& 0x80 ≠ 0) ∧ ((1 : Nat) &&& 0x80 = 0) ∧
    (∃ v, Decoder.next_varint ([128] ++ 1 :: [7]) = .ok (v, [7])) ∧
    Decoder.next_varint [128, 128, 128] = .error .InvalidMemoryAccess :=
  ⟨by decide, by decide, claim_C6.2.2.1 [128] 1 [7] (by decide) (by decide),
    claim_C6.2.1 [128, 128, 128] (by decide)⟩

/-- Claim C7: the buffer `08 96 01 12 07 "testing"` decodes to exactly the
two fields `{1, VarInt, Integer 150}` and
`{2, LengthDelimited, is_object false, RawBytes "testing"}`, in order. -/
theorem claim_C7 :
    Decoder.decode [0x08, 0x96, 0x01, 0x12, 0x07,
        0x74, 0x65, 0x73, 0x74, 0x69, 0x6E, 0x67] =
      .ok (.mk [.mk 1 .VarInt false (.BigInt 150),
        .mk 2 .Len false (.Buffer [0x74, 0x65, 0x73, 0x74, 0x69, 0x6E, 0x67])] []) := rfl

/-- Claim C8: on every well-formed result the simplification pass
succeeds, renders wire types through the fixed label table
(`varint`/`i64`/`len`/`i32`/`unknown`), recurses into nested values,
debug-renders every non-nested value, and preserves field numbers, field
order and the `is_object` flag. -/
theorem claim_C8 : ∀ (r : DecodingResult), wfResult r = true →
    (∃ s, simplify r = some s ∧ List.Forall₂ SimRel r.fields s.fields) ∧
    wire_type_to_str .VarInt = "varint".toList ∧
    wire_type_to_str .I64 = "i64".toList ∧
    wire_type_to_str .Len = "len".toList ∧
    wire_type_to_str .I32 = "i32".toList ∧
    wire_type_to_str .SGroup = "unknown".toList ∧
    wire_type_to_str .EGroup = "unknown".toList := by
  intro r h
  exact ⟨wf_simplify_result r h, rfl, rfl, rfl, rfl, rfl, rfl⟩

theorem claim_C8_witness :
    wfResult (.mk [.mk 1 .VarInt false (.BigInt 150)] []) = true ∧
    (∃ s, simplify (.mk [.mk 1 .VarInt false (.BigInt 150)] []) = some s ∧
      List.Forall₂ SimRel (DecodingResult.mk [.mk 1 .VarInt false (.BigInt 150)] []).fields
        s.fields) :=
  ⟨by decide, (claim_C8 (.mk [.mk 1 .VarInt false (.BigInt 150)] []) (by decide)).1⟩

/-- Claim C9: the display step for a simplified non-nested value inverts
the literal `Buffer([...])` byte listing — when the listed bytes are valid
UTF-8 the decoded text is shown instead — and leaves every string that
`parse_buffer` does not accept unchanged; it is a total function with no
error outcome. -/
theorem claim_C9 :
    (∀ (bs : List Nat) (t : List Char), bs ≠ [] → (∀ b ∈ bs, b < 256) →
      from_utf8 bs = some t → display_string (debugValue (.Buffer bs)) = t) ∧
    (∀ bs : List Nat, bs ≠ [] → (∀ b ∈ bs, b < 256) →
      parse_buffer (debugValue (.Buffer bs)) = from_utf8 bs) ∧
    (∀ s : List Char, parse_buffer s = none → display_string s = s) ∧
    (∀ (s t : List Char), parse_buffer s = some t → display_string s = t) := by
  refine ⟨?_, ?_, ?_, ?_⟩
  · intro bs t hne hlt hutf
    rw [display_string, parse_buffer_debug bs hne hlt, hutf]
    rfl
  · exact parse_buffer_debug
  · intro s h
    rw [display_string, h]
    rfl
  · intro s t h
    rw [display_string, h]
    rfl

theorem claim_C9_witness :
    ([104, 105] : List Nat) ≠ [] ∧ (∀ b ∈ ([104, 105] : List Nat), b < 256) ∧
    from_utf8 [104, 105] = some "hi".toList ∧
    display_string (debugValue (.Buffer [104, 105])) = "hi".toList :=
  ⟨by decide, by decide, rfl,
    claim_C9.1 [104, 105] "hi".toList (by decide) (by decide) rfl⟩

/-- Claim C10: every successful decode yields, at every nesting depth,
fields whose `is_object` flag is `true` exactly when the value is
`Nested`; consequently the simplification pass, which unwraps `Nested`
whenever the flag is set, succeeds (never panics) on every
decoder-produced result. -/
theorem claim_C10 : ∀ (l : List Nat) (r : DecodingResult), Decoder.decode l = .ok r →
    wfResult r = true ∧
    (∀ f ∈ r.fields, f.is_object = true ↔ ∃ n, f.value = DecodedValue.Nested n) ∧
    ∃ s, simplify r = some s := by
  intro l r h
  obtain ⟨hwf, -⟩ := decode_ok_inv h
  refine ⟨hwf, ?_, ?_⟩
  · intro f hf
    refine wfFields_mem ?_ hf
    rw [← wfResult_eq]
    exact hwf
  · obtain ⟨s, hs, -⟩ := wf_simplify_result r hwf
    exact ⟨s, hs⟩

theorem claim_C10_witness :
    Decoder.decode [18, 2, 8, 5] =
      .ok (.mk [.mk 2 .Len true (.Nested (.mk [.mk 1 .VarInt false (.BigInt 5)] []))] []) ∧
    wfResult (.mk [.mk 2 .Len true (.Nested (.mk [.mk 1 .VarInt false (.BigInt 5)] []))] [])
      = true :=
  ⟨rfl, (claim_C10 [18, 2, 8, 5]
    (.mk [.mk 2 .Len true (.Nested (.mk [.mk 1 .VarInt false (.BigInt 5)] []))] []) rfl).1⟩

end FetchHotfix
